import Mathlib

/-!
Verification development for the pigz parallel compression pipeline
(`src/pigz.c`).  The definitions below are shallow embeddings of the C
functions: machine integers become `Nat` with explicit `% 2 ^ w` where the
C code truncates, byte buffers become `List Nat`, and the fatal `bail`
exits become `Except.error`.  Each claim of the specification is settled
by a theorem at the end of the file.
-/

namespace Pigz

/-- Deflate flush modes used by the pipeline (the zlib constants
Z_NO_FLUSH, Z_SYNC_FLUSH, Z_FULL_FLUSH and Z_FINISH). -/
inductive ZFlush where
  | noFlush
  | syncFlush
  | fullFlush
  | finish
  deriving DecidableEq, Repr

/-! ## Check combiners (pigz.c lines 200 - 298) -/

/-- Embedding of `gf2_matrix_times` (pigz.c line 202): multiply the GF(2)
matrix `mat` by the bit vector `vec`.  The C loop runs while `vec` is
nonzero, consuming one matrix row per bit of `vec`. -/
def gf2_matrix_times : List Nat → Nat → Nat
  | [], _ => 0
  | m :: mat, vec =>
      if vec = 0 then 0
      else (if vec % 2 = 1 then m else 0) ^^^ gf2_matrix_times mat (vec / 2)

/-- Embedding of `gf2_matrix_square` (pigz.c line 216):
`square[n] = gf2_matrix_times(mat, mat[n])`. -/
def gf2_matrix_square (mat : List Nat) : List Nat :=
  mat.map (gf2_matrix_times mat)

/-- Reflected CRC-32 polynomial used by `crc32_comb` (pigz.c line 237). -/
def crc32_poly : Nat := 0xedb88320

/-- Embedding of the do-while loop of `crc32_comb` (pigz.c lines 252 - 270).
On entry `odd` holds the operator for four zero bits; the loop squares
alternately into `even` and `odd` and applies the operator for the set
bits of `len2`.  The two dite tests mirror the two `len2 == 0` exits. -/
def crc32_comb_loop (odd : List Nat) (crc1 len2 : Nat) : Nat :=
  let even := gf2_matrix_square odd
  let c1 := if len2 % 2 = 1 then gf2_matrix_times even crc1 else crc1
  if h1 : len2 / 2 = 0 then c1
  else
    let odd2 := gf2_matrix_square even
    let c2 := if (len2 / 2) % 2 = 1 then gf2_matrix_times odd2 c1 else c1
    if h2 : len2 / 2 / 2 = 0 then c2
    else crc32_comb_loop odd2 c2 (len2 / 2 / 2)
  termination_by len2
  decreasing_by omega

/-- Embedding of `crc32_comb` (pigz.c lines 224 - 275): combine two CRC-32
values given the byte length of the second region.  `odd1` is the operator
for one zero bit (row 0 is the polynomial, row `n` maps bit `n` to bit
`n - 1`); it is squared twice before the loop, exactly as in the C code. -/
def crc32_comb (crc1 crc2 len2 : Nat) : Nat :=
  if len2 = 0 then crc1
  else
    let odd1 := crc32_poly :: (List.range 31).map (fun n => 2 ^ n)
    let even := gf2_matrix_square odd1
    let odd4 := gf2_matrix_square even
    crc32_comb_loop odd4 crc1 len2 ^^^ crc2

/-- Modelled from the spec: one step of the reflected CRC-32 bit recurrence
over the polynomial 0xEDB88320.  The function `crc32` itself lives in the
external zlib library, not in this repository; the spec fixes it as the
standard CRC-32. -/
def crc32_bit (c : Nat) : Nat :=
  (c / 2) ^^^ (if c % 2 = 1 then crc32_poly else 0)

/-- Modelled from the spec: absorb one byte into the CRC-32 register. -/
def crc32_byte (c b : Nat) : Nat :=
  crc32_bit^[8] (c ^^^ b % 256)

/-- Modelled from the spec: the raw CRC-32 register after absorbing a byte
sequence, without the pre and post conditioning. -/
def crc32_raw (c : Nat) (data : List Nat) : Nat :=
  data.foldl crc32_byte c

/-- Modelled from the spec: the standard CRC-32 of a byte sequence
(register preset to all ones, final complement), as computed by
`crc32(0, buf, len)` in zlib. -/
def crc32 (data : List Nat) : Nat :=
  crc32_raw 0xffffffff data ^^^ 0xffffffff

/-- Largest prime below 65536, the `BASE` constant of pigz.c line 277. -/
def BASE : Nat := 65521

/-- Embedding of `adler32_comb` (pigz.c lines 280 - 298).  The C masks
`& LOW16` become `% 65536`, the shifts `>> 16` become `/ 65536`, and the
three conditional subtractions use the strict comparisons of the C code. -/
def adler32_comb (adler1 adler2 len2 : Nat) : Nat :=
  let rem := len2 % BASE
  let sum1a := adler1 % 65536
  let sum2a := (rem * sum1a) % BASE
  let sum1b := sum1a + (adler2 % 65536) + BASE - 1
  let sum2b := sum2a + ((adler1 / 65536) % 65536) + ((adler2 / 65536) % 65536) + BASE - rem
  let sum1c := if sum1b > BASE then sum1b - BASE else sum1b
  let sum1d := if sum1c > BASE then sum1c - BASE else sum1c
  let sum2c := if sum2b > 2 * BASE then sum2b - 2 * BASE else sum2b
  let sum2d := if sum2c > BASE then sum2c - BASE else sum2c
  sum1d ||| (sum2d * 65536)

/-- Modelled from the spec: one byte of the standard Adler-32 recurrence,
both sums reduced modulo the prime 65521.  The function `adler32` itself
lives in the external zlib library; the spec fixes it as the standard
Adler-32. -/
def adler32_step (s : Nat × Nat) (b : Nat) : Nat × Nat :=
  let s1 := (s.1 + b % 256) % BASE
  (s1, (s.2 + s1) % BASE)

/-- Modelled from the spec: the standard Adler-32 of a byte sequence,
seeded with s1 = 1, s2 = 0. -/
def adler32 (data : List Nat) : Nat :=
  let s := data.foldl adler32_step (1, 0)
  s.2 * 65536 + s.1

/-! ## Container framing (pigz.c lines 684 - 822) -/

/-- Embedding of the `PUT2L` macro (pigz.c line 685): two bytes of `b` in
little endian order, each stored into an unsigned char. -/
def put2l (b : Nat) : List Nat :=
  [b % 256, (b / 256) % 256]

/-- Embedding of the `PUT4L` macro (pigz.c line 686): four bytes of `b` in
little endian order. -/
def put4l (b : Nat) : List Nat :=
  put2l (b % 65536) ++ put2l (b / 65536)

/-- Embedding of the zlib branch of `put_header` (pigz.c lines 725 - 732).
The compression level is an `Int` because the zlib default level constant
Z_DEFAULT_COMPRESSION is -1.  Returns the two header bytes. -/
def zlib_head (level : Int) : Nat × Nat :=
  let b0 : Nat := 0x78
  let b1 : Nat :=
    (if level = 9 then 3 else if level = 1 then 0 else
      if 6 ≤ level ∨ level = -1 then 1 else 2) * 64
  (b0, b1 + (31 - (b0 * 256 + b1) % 31))

/-- Embedding of the gzip branch of `put_header` (pigz.c lines 733 - 747):
the ten fixed bytes, then the stored name plus a NUL terminator when a
name is present.  The name is a list of bytes or `none`. -/
def put_header_gzip (name : Option (List Nat)) (mtime : Nat) (level : Int) :
    List Nat :=
  [31, 139, 8, if name.isSome then 8 else 0] ++ put4l mtime ++
    [if level = 9 then 2 else if level = 1 then 4 else 0, 3] ++
    (match name with
     | some nm => nm ++ [0]
     | none => [])

/-- Embedding of the gzip branch of `put_trailer` (pigz.c lines 817 - 821):
four little endian bytes of the check value, then four little endian bytes
of the uncompressed length. -/
def put_trailer_gzip (ulen clen check head : Nat) : List Nat :=
  put4l check ++ put4l ulen

/-! ## Parallel compression pipeline (pigz.c lines 824 - 983) -/

/-- Largest power of two in an unsigned int, the `MAX` constant of
pigz.c line 661 for a 32 bit unsigned int. -/
def MAX : Nat := 2 ^ 31

/-- Embedding of the deflate call sequence of `compress_thread`
(pigz.c lines 856 - 872) for a work unit of input length `len` and block
size `size`: the while loop feeds MAX sized chunks with no flush, and the
final call uses Z_FINISH when `total < size` (with `total` the original
`job->len`), else Z_SYNC_FLUSH. -/
def compress_chunks (len total size : Nat) : List (Nat × ZFlush) :=
  if h : len > MAX then (MAX, ZFlush.noFlush) :: compress_chunks (len - MAX) total size
  else [(len, if total < size then ZFlush.finish else ZFlush.syncFlush)]
  termination_by len
  decreasing_by
    have hM : 0 < MAX := by decide
    omega

/-- The list of (length, flush) deflate calls made by `compress_thread`
for a block of input length `len` with block size `size`. -/
def compress_thread_calls (len size : Nat) : List (Nat × ZFlush) :=
  compress_chunks len len size

/-- Embedding of the dictionary condition of `compress_thread`
(pigz.c line 853): `dict && prev->buf != NULL && len != 0`. -/
def compress_sets_dict (dict : Bool) (prevBuf : Bool) (len : Nat) : Bool :=
  dict && prevBuf && (len != 0)

/-- Embedding of the read loop shared by `read_thread` (pigz.c lines
950 - 976) and `single_gzip` (pigz.c lines 1010 - 1044): read up to `S`
bytes per block and stop after the first read shorter than `S`.  A read
that finds the input exhausted yields a final empty block.  The `0 < S`
conjunct only rules out the nonterminating `S = 0` case, which the
configuration (block size at least 32 KiB) excludes. -/
def reader_blocks (S : Nat) (input : List Nat) : List (List Nat) :=
  let b := input.take S
  if h : b.length = S ∧ 0 < S then b :: reader_blocks S (input.drop S)
  else [b]
  termination_by input.length
  decreasing_by
    have h1 : (input.take S).length = S := h.1
    rw [List.length_take] at h1
    have h2 : (input.drop S).length = input.length - S := List.length_drop S input
    omega

/-- Embedding of the flush selection of `single_gzip` (pigz.c line 1037):
Z_FINISH for a short (final) read, else Z_NO_FLUSH when the dict flag is
set and Z_FULL_FLUSH when it is not. -/
def single_flush (got size : Nat) (dict : Bool) : ZFlush :=
  if got < size then ZFlush.finish
  else if dict then ZFlush.noFlush else ZFlush.fullFlush

/-- The terminal flush issued by `single_gzip` for each block of the
input, in input order. -/
def single_gzip_flushes (S : Nat) (dict : Bool) (input : List Nat) :
    List ZFlush :=
  (reader_blocks S input).map (fun b => single_flush b.length S dict)

/-- One work unit as seen by the write thread: the input length, the
compressed output bytes and the per block check value (the fields `len`,
`out` and `check` of `struct work`, pigz.c line 581). -/
structure Work where
  len : Nat
  out : List Nat
  check : Nat

/-- Accumulators of `write_thread` (pigz.c lines 884 - 897): the emitted
body bytes, the total uncompressed and compressed lengths and the
composed check value. -/
structure WriteAcc where
  body : List Nat
  ulen : Nat
  clen : Nat
  check : Nat

/-- Embedding of the do-while loop of `write_thread` (pigz.c lines
899 - 926).  The flag protocol serializes the hand off, so the loop is a
fold over the work units in ring order, which is block input order: each
step appends the compressed output, adds the input and output lengths to
`ulen` and `clen`, folds the block check into the composed check with
`COMB`, and continues exactly when the input length equals `S`. -/
def write_thread_go (S : Nat) (comb : Nat → Nat → Nat → Nat) :
    List Work → Nat → Nat → Nat → WriteAcc
  | [], ulen, clen, check => ⟨[], ulen, clen, check⟩
  | w :: ws, ulen, clen, check =>
      let u2 := ulen + w.len
      let c2 := clen + w.out.length
      let k2 := comb check w.check w.len
      if w.len = S then
        let r := write_thread_go S comb ws u2 c2 k2
        ⟨w.out ++ r.body, r.ulen, r.clen, r.check⟩
      else ⟨w.out, u2, c2, k2⟩

/-- Embedding of `write_thread` (pigz.c lines 882 - 931): header bytes,
then the loop over the work units starting from accumulators zero and the
format seed, then the trailer built from the final accumulators. -/
def write_thread_model (hdr : List Nat) (trl : Nat → Nat → Nat → List Nat)
    (S : Nat) (comb : Nat → Nat → Nat → Nat) (seed : Nat) (ws : List Work) :
    List Nat :=
  let r := write_thread_go S comb ws 0 0 seed
  hdr ++ r.body ++ trl r.ulen r.clen r.check

/-- The work units produced for the blocks of the input, in block order:
block `i` carries compressed output `comp i` and check value `chk i`.
The output and check are abstract functions of the block index, which
covers any dependence on level, dictionary and block content. -/
def works (comp : Nat → List Nat) (chk : Nat → Nat) :
    Nat → List (List Nat) → List Work
  | _, [] => []
  | i, b :: bs => ⟨b.length, comp i, chk i⟩ :: works comp chk (i + 1) bs

/-! ## Decompression verification (pigz.c lines 1541 - 1712) -/

/-- One decoded gzip stream as seen by the trailer check of `infchk`:
the stored trailer (check value and length), or `none` when the input
ended inside the trailer, together with the computed check value and
total decompressed length. -/
structure GzStream where
  trailer : Option (Nat × Nat)
  outCheck : Nat
  outTot : Nat

/-- Embedding of the gzip trailer verification of `infchk` (pigz.c lines
1689 - 1698).  An `Except.error` models `bail`, which prints the
diagnostic, deletes the partial output file and exits with a nonzero
status. -/
def infchk_gzip_trailer (s : GzStream) : Except String Unit :=
  match s.trailer with
  | none => Except.error "corrupted gzip stream -- missing trailer: "
  | some (check, len) =>
      if check ≠ s.outCheck then
        Except.error "corrupted gzip stream -- crc32 mismatch: "
      else if len ≠ s.outTot % 2 ^ 32 then
        Except.error "corrupted gzip stream -- length mismatch: "
      else Except.ok ()

/-- Embedding of the do-while loop of `infchk` (pigz.c lines 1623 - 1712)
for gzip input: each successfully inflated stream has its trailer checked
(a mismatch is fatal), and after the last stream the result of the final
`get_header(0)` call, `ret` with detected form `form`, decides the exit:
the returned Bool is true exactly when the non fatal trailing junk
warning is printed, namely when `ret` is not -1 (end of input) and the
trailing bytes were not a zip header. -/
def infchk_gzip : List GzStream → Int → Nat → Except String Bool
  | [], ret, form => Except.ok ((ret != -1) && decide (form < 2))
  | s :: rest, ret, form =>
      match infchk_gzip_trailer s with
      | Except.error e => Except.error e
      | Except.ok _ => infchk_gzip rest ret form

/-! ## Output callback for decompression (pigz.c lines 1552 - 1601) -/

/-- Embedding of the single worker `outb` (pigz.c lines 1552 - 1559): add
the chunk length to the running total and fold the chunk into the running
check value inline.  The state is (total, check) and `chk` abstracts the
format dependent CHECK macro. -/
def outb_single (chk : Nat → List Nat → Nat) (s : Nat × Nat)
    (buf : List Nat) : Nat × Nat :=
  (s.1 + buf.length, chk s.2 buf)

/-- Embedding of `run_check` (pigz.c lines 1571 - 1577): the one shot
worker updates the check value of its work unit. -/
def run_check (chk : Nat → List Nat → Nat) (work : Nat × List Nat) : Nat :=
  chk work.1 work.2

/-- Embedding of the threaded `outb` (pigz.c lines 1580 - 1601) with more
than one worker configured: the work unit captures the current check
value and the chunk, the check update runs in a one shot thread while the
main thread writes the chunk, and the thread is joined before the
callback returns, so the sequential semantics applies `run_check` and
then installs the result. -/
def outb_threaded (chk : Nat → List Nat → Nat) (s : Nat × Nat)
    (buf : List Nat) : Nat × Nat :=
  let work := (s.2, buf)
  let tot := s.1 + buf.length
  let newCheck := run_check chk work
  (tot, newCheck)

/-! ## Helper lemmas -/

theorem getLast?_cons_of_ne_nil {α : Type} {a : α} {l : List α} (h : l ≠ []) :
    (a :: l).getLast? = l.getLast? := by
  cases l with
  | nil => exact absurd rfl h
  | cons b t => simp

theorem compress_chunks_ne_nil (len total size : Nat) :
    compress_chunks len total size ≠ [] := by
  induction len, total, size using compress_chunks.induct with
  | case1 len total size h ih => rw [compress_chunks]; simp [h]
  | case2 len total size h => rw [compress_chunks]; simp [h]

theorem compress_chunks_last_flush (len total size : Nat) :
    ((compress_chunks len total size).getLast?).map Prod.snd =
      some (if total < size then ZFlush.finish else ZFlush.syncFlush) := by
  induction len, total, size using compress_chunks.induct with
  | case1 len total size h ih =>
      rw [compress_chunks, dif_pos h]
      rw [getLast?_cons_of_ne_nil (compress_chunks_ne_nil _ _ _)]
      exact ih
  | case2 len total size h =>
      rw [compress_chunks, dif_neg h]
      rfl

theorem compress_chunks_dropLast (len total size : Nat) :
    ∀ c ∈ (compress_chunks len total size).dropLast,
      c.2 = ZFlush.noFlush := by
  induction len, total, size using compress_chunks.induct with
  | case1 len total size h ih =>
      rw [compress_chunks, dif_pos h]
      rw [List.dropLast_cons_of_ne_nil (compress_chunks_ne_nil _ _ _)]
      intro c hc
      rw [List.mem_cons] at hc
      rcases hc with hc | hc
      · rw [hc]
      · exact ih c hc
  | case2 len total size h =>
      rw [compress_chunks, dif_neg h]
      simp

theorem reader_blocks_ne_nil (S : Nat) (input : List Nat) :
    reader_blocks S input ≠ [] := by
  rw [reader_blocks]
  split <;> simp

theorem reader_blocks_dropLast (S : Nat) (input : List Nat) :
    ∀ bl ∈ (reader_blocks S input).dropLast, bl.length = S := by
  refine reader_blocks.induct S
    (fun inp => ∀ bl ∈ (reader_blocks S inp).dropLast, bl.length = S) ?_ ?_ input
  · intro inp b hb ih
    rw [reader_blocks, dif_pos hb]
    rw [List.dropLast_cons_of_ne_nil (reader_blocks_ne_nil _ _)]
    intro bl hbl
    rw [List.mem_cons] at hbl
    rcases hbl with hbl | hbl
    · rw [hbl]; exact hb.1
    · exact ih bl hbl
  · intro inp b hb
    rw [reader_blocks, dif_neg hb]
    simp

theorem reader_blocks_getLast? (S : Nat) (input : List Nat) (hS : 0 < S) :
    ∃ bl, (reader_blocks S input).getLast? = some bl ∧ bl.length < S := by
  refine reader_blocks.induct S
    (fun inp => ∃ bl, (reader_blocks S inp).getLast? = some bl ∧ bl.length < S)
    ?_ ?_ input
  · intro inp b hb ih
    rw [reader_blocks, dif_pos hb]
    rw [getLast?_cons_of_ne_nil (reader_blocks_ne_nil _ _)]
    exact ih
  · intro inp b hb
    have hb2 : ¬((inp.take S).length = S ∧ 0 < S) := hb
    rw [reader_blocks, dif_neg hb]
    refine ⟨inp.take S, by simp, ?_⟩
    have hlen : (inp.take S).length = min S inp.length := List.length_take S inp
    omega

theorem reader_blocks_flatten (S : Nat) (input : List Nat) (hS : 0 < S) :
    (reader_blocks S input).flatten = input := by
  refine reader_blocks.induct S
    (fun inp => (reader_blocks S inp).flatten = inp) ?_ ?_ input
  · intro inp b hb ih
    rw [reader_blocks, dif_pos hb]
    rw [List.flatten_cons, ih, List.take_append_drop]
  · intro inp b hb
    have hb2 : ¬((inp.take S).length = S ∧ 0 < S) := hb
    rw [reader_blocks, dif_neg hb]
    have hlen : (inp.take S).length = min S inp.length := List.length_take S inp
    simp only [List.flatten_cons, List.flatten_nil, List.append_nil]
    exact List.take_of_length_le (by omega)

theorem reader_blocks_length_mul (S : Nat) (hS : 0 < S) :
    ∀ (k : Nat) (input : List Nat), input.length = S * k →
      (reader_blocks S input).length = k + 1 := by
  intro k input
  refine reader_blocks.induct S
    (fun inp => ∀ k2, inp.length = S * k2 → (reader_blocks S inp).length = k2 + 1)
    ?_ ?_ input k
  · intro inp b hb ih k2 hk
    have hb1 : (inp.take S).length = S := hb.1
    rw [List.length_take] at hb1
    rw [reader_blocks, dif_pos hb, List.length_cons]
    cases k2 with
    | zero =>
        rw [Nat.mul_zero] at hk
        omega
    | succ k3 =>
        have hdrop : (inp.drop S).length = S * k3 := by
          rw [List.length_drop, hk, Nat.mul_succ]
          omega
        rw [ih k3 hdrop]
  · intro inp b hb k2 hk
    have hb2 : ¬((inp.take S).length = S ∧ 0 < S) := hb
    have hlen : (inp.take S).length = min S inp.length := List.length_take S inp
    rw [reader_blocks, dif_neg hb, List.length_singleton]
    cases k2 with
    | zero => rfl
    | succ k3 =>
        have : S ≤ S * (k3 + 1) := Nat.le_mul_of_pos_right S (Nat.succ_pos k3)
        omega

theorem reader_blocks_getLast_mul (S : Nat) (hS : 0 < S) :
    ∀ (k : Nat) (input : List Nat), input.length = S * k →
      (reader_blocks S input).getLast? = some [] := by
  intro k input
  refine reader_blocks.induct S
    (fun inp => ∀ k2, inp.length = S * k2 →
      (reader_blocks S inp).getLast? = some [])
    ?_ ?_ input k
  · intro inp b hb ih k2 hk
    have hb1 : (inp.take S).length = S := hb.1
    rw [List.length_take] at hb1
    rw [reader_blocks, dif_pos hb]
    rw [getLast?_cons_of_ne_nil (reader_blocks_ne_nil _ _)]
    cases k2 with
    | zero =>
        rw [Nat.mul_zero] at hk
        omega
    | succ k3 =>
        refine ih k3 ?_
        rw [List.length_drop, hk, Nat.mul_succ]
        omega
  · intro inp b hb k2 hk
    have hb2 : ¬((inp.take S).length = S ∧ 0 < S) := hb
    have hlen : (inp.take S).length = min S inp.length := List.length_take S inp
    have h0 : inp.length = 0 := by
      cases k2 with
      | zero => rw [Nat.mul_zero] at hk; exact hk
      | succ k3 =>
          have : S ≤ S * (k3 + 1) := Nat.le_mul_of_pos_right S (Nat.succ_pos k3)
          omega
    have hnil : inp = [] := List.eq_nil_of_length_eq_zero h0
    rw [reader_blocks, dif_neg hb, hnil]
    simp

/-! ## Claim theorems C4, C5, C6, C7, C9 -/

/-- Claim C4: in the parallel compression path the final deflate call of a
block uses sync-flush when the input length of the block equals the block
size and finish when it is less than the block size; every earlier deflate
call of the block uses no flush. -/
theorem claim_C4 (len size : Nat) :
    (len = size →
      ((compress_thread_calls len size).map Prod.snd).getLast? =
        some ZFlush.syncFlush) ∧
    (len < size →
      ((compress_thread_calls len size).map Prod.snd).getLast? =
        some ZFlush.finish) ∧
    (∀ c ∈ (compress_thread_calls len size).dropLast,
      c.2 = ZFlush.noFlush) := by
  refine ⟨?_, ?_, compress_chunks_dropLast len len size⟩
  · intro he
    rw [compress_thread_calls, List.getLast?_map, compress_chunks_last_flush,
      if_neg (by omega)]
  · intro hlt
    rw [compress_thread_calls, List.getLast?_map, compress_chunks_last_flush,
      if_pos hlt]

/-- Witness for claim C4 at the concrete inputs (5, 5) and (3, 5). -/
theorem claim_C4_witness :
    ((compress_thread_calls 5 5).map Prod.snd).getLast? =
        some ZFlush.syncFlush ∧
    ((compress_thread_calls 3 5).map Prod.snd).getLast? =
        some ZFlush.finish :=
  ⟨(claim_C4 5 5).1 rfl, (claim_C4 3 5).2.1 (by decide)⟩

/-- Claim C5 counterexample: with the dict flag off, `single_gzip`
terminates a full read of exactly the block size 32768 (a mid-stream
block) with a full-flush, not with the finish flush the claim states. -/
theorem claim_C5_counterexample :
    single_flush 32768 32768 false = ZFlush.fullFlush ∧
    ZFlush.fullFlush ≠ ZFlush.finish := by
  constructor
  · rw [single_flush, if_neg (by omega)]
    rfl
  · decide

/-- Claim C5 (amended): in the serial fallback every mid-stream block (a
full read of exactly S bytes) ends with a full-flush when the dict flag is
off and with no flush when it is on, and finish is issued exactly for the
final short read. -/
theorem claim_C5_amended (S : Nat) (dict : Bool) (input : List Nat)
    (hS : 0 < S) :
    (∀ f ∈ (single_gzip_flushes S dict input).dropLast,
        f = if dict then ZFlush.noFlush else ZFlush.fullFlush) ∧
    (single_gzip_flushes S dict input).getLast? = some ZFlush.finish := by
  constructor
  · intro f hf
    rw [single_gzip_flushes, ← List.map_dropLast] at hf
    obtain ⟨b, hb, hfb⟩ := List.exists_of_mem_map hf
    have hlen : b.length = S := reader_blocks_dropLast S input b hb
    rw [← hfb, single_flush, hlen, if_neg (by omega)]
  · obtain ⟨b, hb, hblen⟩ := reader_blocks_getLast? S input hS
    rw [single_gzip_flushes, List.getLast?_map, hb]
    simp [single_flush, hblen]

/-- Witness for the amended claim C5 at block size 32768 on empty input. -/
theorem claim_C5_witness :
    0 < 32768 ∧
    (single_gzip_flushes 32768 false []).getLast? = some ZFlush.finish :=
  ⟨by decide, (claim_C5_amended 32768 false [] (by decide)).2⟩

/-- Claim C6 counterexample: at compression level 7 the second zlib header
byte carries 1 in its top two bits, while the claim (which reserves 1 for
level 6 and the default level and demands 2 for every other level) would
require 2. -/
theorem claim_C6_counterexample :
    (zlib_head 7).2 / 64 = 1 ∧ (1 : Nat) ≠ 2 := by
  constructor
  · rfl
  · decide

/-- Claim C6 (amended): the zlib header is the byte 0x78 followed by a
byte whose top two bits are 3 for level 9, 0 for level 1, 1 for levels 6
through 8 and for the default level, else 2, and whose remaining bits make
the big-endian 16 bit header value a multiple of 31; at level 9 the two
bytes are 78 DA. -/
theorem claim_C6_amended (level : Int) :
    (zlib_head level).1 = 0x78 ∧
    (zlib_head level).2 / 64 =
      (if level = 9 then 3 else if level = 1 then 0 else
        if 6 ≤ level ∨ level = -1 then 1 else 2) ∧
    ((zlib_head level).1 * 256 + (zlib_head level).2) % 31 = 0 ∧
    zlib_head 9 = (0x78, 0xda) := by
  by_cases h9 : level = 9
  · subst h9; decide
  · by_cases h1 : level = 1
    · subst h1; decide
    · by_cases h6 : 6 ≤ level ∨ level = -1
      · simp only [zlib_head, if_neg h9, if_neg h1, if_pos h6]
        decide
      · simp only [zlib_head, if_neg h9, if_neg h1, if_neg h6]
        decide

/-- Claim C7: the gzip header is 1F 8B 08 FLG, four little endian mtime
bytes, XFL, 03, then the optional NUL terminated name, with FLG 8 exactly
when a name is stored and XFL 2 for level 9, 4 for level 1, else 0; the
gzip trailer is the four little endian CRC-32 bytes followed by the four
little endian bytes of the uncompressed length reduced modulo 2^32. -/
theorem claim_C7 :
    (∀ (name : Option (List Nat)) (mtime : Nat) (level : Int),
        put_header_gzip name mtime level =
          [0x1f, 0x8b, 0x08, if name.isSome then 8 else 0] ++
            [mtime % 256, mtime / 256 % 256, mtime / 65536 % 256,
              mtime / 16777216 % 256] ++
            [if level = 9 then 2 else if level = 1 then 4 else 0, 0x03] ++
            (match name with
             | some nm => nm ++ [0]
             | none => [])) ∧
    (∀ ulen clen check head,
        put_trailer_gzip ulen clen check head =
          [check % 256, check / 256 % 256, check / 65536 % 256,
            check / 16777216 % 256] ++
          [ulen % 2 ^ 32 % 256, ulen % 2 ^ 32 / 256 % 256,
            ulen % 2 ^ 32 / 65536 % 256, ulen % 2 ^ 32 / 16777216 % 256]) := by
  constructor
  · intro name mtime level
    simp only [put_header_gzip, put4l, put2l, List.cons_append,
      List.nil_append, List.cons.injEq, true_and, and_true]
    omega
  · intro ulen clen check head
    simp only [put_trailer_gzip, put4l, put2l, List.cons_append,
      List.nil_append, List.cons.injEq, true_and, and_true]
    omega

/-- Claim C9: folding the decompressed output chunks through the threaded
output callback (the check update offloaded to a one-shot worker that is
joined before the callback returns) yields exactly the same total output
length and running check value as the single worker callback that updates
the check inline. -/
theorem claim_C9 (chk : Nat → List Nat → Nat) (chunks : List (List Nat))
    (s : Nat × Nat) :
    chunks.foldl (outb_threaded chk) s = chunks.foldl (outb_single chk) s := by
  induction chunks generalizing s with
  | nil => rfl
  | cons c cs ih =>
      simp only [List.foldl_cons]
      rw [ih]
      rfl

/-! ## Write thread lemmas -/

theorem works_map_len (comp : Nat → List Nat) (chk : Nat → Nat) :
    ∀ (i : Nat) (bs : List (List Nat)),
      (works comp chk i bs).map Work.len = bs.map List.length := by
  intro i bs
  induction bs generalizing i with
  | nil => rfl
  | cons b bs ih => simp [works, ih]

theorem write_go_spec (S : Nat) (comb : Nat → Nat → Nat → Nat) :
    ∀ (ws : List Work),
      (∀ w ∈ ws.dropLast, w.len = S) →
      (∀ w, ws.getLast? = some w → w.len ≠ S) →
      ∀ u c k, write_thread_go S comb ws u c k =
        ⟨(ws.map Work.out).flatten,
         u + (ws.map Work.len).sum,
         c + (ws.map (fun w => w.out.length)).sum,
         ws.foldl (fun a w => comb a w.check w.len) k⟩ := by
  intro ws
  induction ws with
  | nil => intro _ _ u c k; simp [write_thread_go]
  | cons w ws ih =>
      intro hmid hlast u c k
      cases ws with
      | nil =>
          have hne : w.len ≠ S := hlast w rfl
          simp [write_thread_go, if_neg hne]
      | cons w2 ws2 =>
          have hw : w.len = S := by
            refine hmid w ?_
            rw [List.dropLast_cons_of_ne_nil (by simp)]
            exact List.mem_cons_self w _
          have hmid2 : ∀ x ∈ (w2 :: ws2).dropLast, x.len = S := by
            intro x hx
            refine hmid x ?_
            rw [List.dropLast_cons_of_ne_nil (by simp)]
            exact List.mem_cons_of_mem w hx
          have hlast2 : ∀ x, (w2 :: ws2).getLast? = some x → x.len ≠ S := by
            intro x hx
            exact hlast x (by rw [List.getLast?_cons_cons]; exact hx)
          rw [write_thread_go, if_pos hw, ih hmid2 hlast2]
          simp only [List.map_cons, List.flatten_cons, List.sum_cons,
            List.foldl_cons, WriteAcc.mk.injEq]
          refine ⟨trivial, by omega, by omega, trivial⟩

theorem write_go_append (S : Nat) (comb : Nat → Nat → Nat → Nat) :
    ∀ (ws extra : List Work), ws ≠ [] →
      (∀ w ∈ ws.dropLast, w.len = S) →
      (∀ w, ws.getLast? = some w → w.len ≠ S) →
      ∀ u c k, write_thread_go S comb (ws ++ extra) u c k =
        write_thread_go S comb ws u c k := by
  intro ws
  induction ws with
  | nil => intro extra hne; exact absurd rfl hne
  | cons w ws ih =>
      intro extra _ hmid hlast u c k
      cases ws with
      | nil =>
          have hne : w.len ≠ S := hlast w rfl
          simp only [List.cons_append, List.nil_append]
          rw [write_thread_go]
          cases extra with
          | nil => rfl
          | cons e es =>
              rw [if_neg hne, write_thread_go, if_neg hne]
      | cons w2 ws2 =>
          have hw : w.len = S := by
            refine hmid w ?_
            rw [List.dropLast_cons_of_ne_nil (by simp)]
            exact List.mem_cons_self w _
          have hmid2 : ∀ x ∈ (w2 :: ws2).dropLast, x.len = S := by
            intro x hx
            refine hmid x ?_
            rw [List.dropLast_cons_of_ne_nil (by simp)]
            exact List.mem_cons_of_mem w hx
          have hlast2 : ∀ x, (w2 :: ws2).getLast? = some x → x.len ≠ S := by
            intro x hx
            exact hlast x (by rw [List.getLast?_cons_cons]; exact hx)
          have ih2 := ih extra (by simp) hmid2 hlast2
          simp only [List.cons_append] at ih2 ⊢
          have unfold_cons : ∀ (l : List Work) (u c k : Nat),
              write_thread_go S comb (w :: l) u c k =
                if w.len = S then
                  (let r := write_thread_go S comb l (u + w.len)
                    (c + w.out.length) (comb k w.check w.len)
                   ⟨w.out ++ r.body, r.ulen, r.clen, r.check⟩)
                else ⟨w.out, u + w.len, c + w.out.length,
                  comb k w.check w.len⟩ := fun l u c k => rfl
          rw [unfold_cons, unfold_cons, if_pos hw, if_pos hw]
          simp only [ih2]

/-- Claim C1: for every input stream and configuration with more than one
worker, the writer emits exactly the container header, then the compressed
output of each block in strict input order, then the container trailer
built from the final accumulators; the composed check is folded in block
order as comb applied to the previous check, the block check and the block
length starting from the format seed, ulen and clen accumulate the input
and output lengths per block, and the writer stops after the first block
whose input length is less than S (work units beyond it are ignored).  The
blocks are the reader partition of the input, whose concatenation is the
input itself; per block output and check are abstract functions of the
block index. -/
theorem claim_C1 (S N : Nat) (input : List Nat) (comp : Nat → List Nat)
    (chk : Nat → Nat) (hdr : List Nat) (trl : Nat → Nat → Nat → List Nat)
    (comb : Nat → Nat → Nat → Nat) (seed : Nat) (extra : List Work)
    (hS : 0 < S) (hN : 1 < N) :
    (reader_blocks S input).flatten = input ∧
    write_thread_model hdr trl S comb seed
        (works comp chk 0 (reader_blocks S input)) =
      hdr ++
        ((works comp chk 0 (reader_blocks S input)).map Work.out).flatten ++
        trl ((reader_blocks S input).map List.length).sum
          (((works comp chk 0 (reader_blocks S input)).map Work.out).flatten.length)
          ((works comp chk 0 (reader_blocks S input)).foldl
            (fun a w => comb a w.check w.len) seed) ∧
    write_thread_model hdr trl S comb seed
        (works comp chk 0 (reader_blocks S input) ++ extra) =
      write_thread_model hdr trl S comb seed
        (works comp chk 0 (reader_blocks S input)) := by
  have hmid : ∀ w ∈ (works comp chk 0 (reader_blocks S input)).dropLast,
      w.len = S := by
    intro w hw
    have h1 : w.len ∈
        ((works comp chk 0 (reader_blocks S input)).dropLast).map Work.len :=
      List.mem_map_of_mem Work.len hw
    rw [List.map_dropLast, works_map_len, ← List.map_dropLast] at h1
    obtain ⟨b, hb, hlen⟩ := List.exists_of_mem_map h1
    rw [← hlen]
    exact reader_blocks_dropLast S input b hb
  have hlast : ∀ w, (works comp chk 0 (reader_blocks S input)).getLast? =
      some w → w.len ≠ S := by
    intro w hw
    have h1 : ((works comp chk 0 (reader_blocks S input)).map
        Work.len).getLast? = some w.len := by
      rw [List.getLast?_map, hw]
      rfl
    rw [works_map_len, List.getLast?_map] at h1
    obtain ⟨bl, hbl, hbllen⟩ := reader_blocks_getLast? S input hS
    rw [hbl] at h1
    have : bl.length = w.len := Option.some.inj h1
    omega
  refine ⟨reader_blocks_flatten S input hS, ?_, ?_⟩
  · rw [write_thread_model, write_go_spec S comb _ hmid hlast]
    have hflat : ((works comp chk 0 (reader_blocks S input)).map
        Work.out).flatten.length =
        ((works comp chk 0 (reader_blocks S input)).map
          (fun w => w.out.length)).sum := by
      rw [List.length_flatten, List.map_map]
      rfl
    rw [hflat, works_map_len]
    simp
  · rw [write_thread_model, write_thread_model,
      write_go_append S comb _ extra ?_ hmid hlast]
    intro hnil
    have h1 : (works comp chk 0 (reader_blocks S input)).map Work.len = [] := by
      rw [hnil]; rfl
    rw [works_map_len] at h1
    exact reader_blocks_ne_nil S input (List.map_eq_nil_iff.mp h1)

/-- Witness for claim C1 with S = 2, N = 4, input [1, 2, 3], concrete
compressor outputs and checks, and one junk work unit appended. -/
theorem claim_C1_witness :
    0 < 2 ∧ 1 < 4 ∧
    write_thread_model [9] (fun u c k => [u, c, k]) 2 (fun a b l => a + b * l) 0
        (works (fun i => [i]) (fun i => i + 7) 0 (reader_blocks 2 [1, 2, 3]) ++
          [⟨5, [7], 3⟩]) =
      write_thread_model [9] (fun u c k => [u, c, k]) 2 (fun a b l => a + b * l) 0
        (works (fun i => [i]) (fun i => i + 7) 0 (reader_blocks 2 [1, 2, 3])) :=
  ⟨by decide, by decide,
    (claim_C1 2 4 [1, 2, 3] (fun i => [i]) (fun i => i + 7) [9]
      (fun u c k => [u, c, k]) (fun a b l => a + b * l) 0 [⟨5, [7], 3⟩]
      (by decide) (by decide)).2.2⟩

/-- Claim C10: when the input length is a positive multiple of S, the
reader schedules one extra empty block: the block list has length
(input length) / S + 1, its last element is the empty block, all earlier
blocks have length S, the empty block is compressed by a single deflate
call with finish and without a preset dictionary, and the writer loop
consumes every block including the final empty one; moreover for every
input the block list ends in a block of length less than S whose final
deflate call is finish. -/
theorem claim_C10 (S : Nat) (input : List Nat) (dict prevBuf : Bool)
    (comp : Nat → List Nat) (chk : Nat → Nat)
    (comb : Nat → Nat → Nat → Nat) (seed : Nat)
    (hS : 0 < S) (hpos : 0 < input.length) (hdvd : S ∣ input.length) :
    (reader_blocks S input).length = input.length / S + 1 ∧
    (reader_blocks S input).getLast? = some [] ∧
    (∀ b ∈ (reader_blocks S input).dropLast, b.length = S) ∧
    compress_thread_calls 0 S = [(0, ZFlush.finish)] ∧
    compress_sets_dict dict prevBuf 0 = false ∧
    (write_thread_go S comb (works comp chk 0 (reader_blocks S input))
        0 0 seed).body =
      ((works comp chk 0 (reader_blocks S input)).map Work.out).flatten ∧
    (∀ input2 : List Nat, ∃ bl,
        (reader_blocks S input2).getLast? = some bl ∧ bl.length < S ∧
        ((compress_thread_calls bl.length S).getLast?).map Prod.snd =
          some ZFlush.finish) := by
  obtain ⟨k, hk⟩ := hdvd
  have hmid : ∀ w ∈ (works comp chk 0 (reader_blocks S input)).dropLast,
      w.len = S := by
    intro w hw
    have h1 : w.len ∈
        ((works comp chk 0 (reader_blocks S input)).dropLast).map Work.len :=
      List.mem_map_of_mem Work.len hw
    rw [List.map_dropLast, works_map_len, ← List.map_dropLast] at h1
    obtain ⟨b, hb, hlen⟩ := List.exists_of_mem_map h1
    rw [← hlen]
    exact reader_blocks_dropLast S input b hb
  have hlast : ∀ w, (works comp chk 0 (reader_blocks S input)).getLast? =
      some w → w.len ≠ S := by
    intro w hw
    have h1 : ((works comp chk 0 (reader_blocks S input)).map
        Work.len).getLast? = some w.len := by
      rw [List.getLast?_map, hw]
      rfl
    rw [works_map_len, List.getLast?_map] at h1
    obtain ⟨bl, hbl, hbllen⟩ := reader_blocks_getLast? S input hS
    rw [hbl] at h1
    have : bl.length = w.len := Option.some.inj h1
    omega
  refine ⟨?_, ?_, reader_blocks_dropLast S input, ?_, ?_, ?_, ?_⟩
  · rw [reader_blocks_length_mul S hS k input hk, hk,
      Nat.mul_div_cancel_left k hS]
  · exact reader_blocks_getLast_mul S hS k input hk
  · rw [compress_thread_calls, compress_chunks,
      dif_neg (by decide : ¬ (0 > MAX)), if_pos hS]
  · simp [compress_sets_dict]
  · rw [write_go_spec S comb _ hmid hlast]
  · intro input2
    obtain ⟨bl, hbl, hbllen⟩ := reader_blocks_getLast? S input2 hS
    refine ⟨bl, hbl, hbllen, ?_⟩
    rw [compress_thread_calls, compress_chunks_last_flush, if_pos hbllen]

/-- Witness for claim C10 with S = 2 and the input [1, 2, 3, 4]. -/
theorem claim_C10_witness :
    0 < 2 ∧ 0 < ([1, 2, 3, 4] : List Nat).length ∧
      2 ∣ ([1, 2, 3, 4] : List Nat).length ∧
      (reader_blocks 2 [1, 2, 3, 4]).getLast? = some [] :=
  ⟨by decide, by decide, by decide,
    (claim_C10 2 [1, 2, 3, 4] true true (fun i => [i]) (fun i => i)
      (fun a b l => a + b * l) 0 (by decide) (by decide) (by decide)).2.1⟩

/-- Claim C8: in gzip decompression a stored trailer check value that
differs from the computed check, or a stored length that differs from the
total decompressed length modulo 2^32, aborts the operation fatally (the
`Except.error` models `bail`, which prints a diagnostic, removes the
partial output file and exits nonzero); whereas when every decoded stream
verifies, the run ends normally, printing the non fatal trailing junk
warning exactly when the final header probe neither hit end of input
(`ret = -1`) nor found a zip header (`form` at least 2). -/
theorem claim_C8 :
    (∀ (c l oc ot : Nat) (rest : List GzStream) (ret : Int)
        (form : Nat), c ≠ oc →
        infchk_gzip (⟨some (c, l), oc, ot⟩ :: rest) ret form =
          Except.error "corrupted gzip stream -- crc32 mismatch: ") ∧
    (∀ (c l oc ot : Nat) (rest : List GzStream) (ret : Int)
        (form : Nat), c = oc → l ≠ ot % 2 ^ 32 →
        infchk_gzip (⟨some (c, l), oc, ot⟩ :: rest) ret form =
          Except.error "corrupted gzip stream -- length mismatch: ") ∧
    (∀ (streams : List GzStream) (ret : Int) (form : Nat),
        (∀ s ∈ streams, infchk_gzip_trailer s = Except.ok ()) →
        infchk_gzip streams ret form =
          Except.ok ((ret != -1) && decide (form < 2))) := by
  refine ⟨?_, ?_, ?_⟩
  · intro c l oc ot rest ret form hne
    rw [infchk_gzip]
    have ht : infchk_gzip_trailer ⟨some (c, l), oc, ot⟩ =
        Except.error "corrupted gzip stream -- crc32 mismatch: " := by
      show (if c ≠ oc then
          (Except.error "corrupted gzip stream -- crc32 mismatch: " :
            Except String Unit)
        else if l ≠ ot % 2 ^ 32 then
          Except.error "corrupted gzip stream -- length mismatch: "
        else Except.ok ()) = _
      exact if_pos hne
    rw [ht]
  · intro c l oc ot rest ret form heq hne
    rw [infchk_gzip]
    have ht : infchk_gzip_trailer ⟨some (c, l), oc, ot⟩ =
        Except.error "corrupted gzip stream -- length mismatch: " := by
      show (if c ≠ oc then
          (Except.error "corrupted gzip stream -- crc32 mismatch: " :
            Except String Unit)
        else if l ≠ ot % 2 ^ 32 then
          Except.error "corrupted gzip stream -- length mismatch: "
        else Except.ok ()) = _
      rw [if_neg (not_not_intro heq), if_pos hne]
    rw [ht]
  · intro streams ret form hok
    induction streams with
    | nil => rfl
    | cons s rest ih =>
        rw [infchk_gzip, hok s (List.mem_cons_self s rest)]
        exact ih fun x hx => hok x (List.mem_cons_of_mem s hx)

/-- Witness for claim C8: a crc mismatch on the first stream is fatal, and
a verified stream followed by non-stream trailing bytes ends normally with
the warning flag set. -/
theorem claim_C8_witness :
    (1 : Nat) ≠ 2 ∧
    infchk_gzip [⟨some (1, 0), 2, 0⟩] (-2) 0 =
      Except.error "corrupted gzip stream -- crc32 mismatch: " ∧
    infchk_gzip [⟨some (5, 3), 5, 3⟩] (-2) 0 = Except.ok true :=
  ⟨by decide,
    claim_C8.1 1 0 2 0 [] (-2) 0 (by decide),
    claim_C8.2.2 [⟨some (5, 3), 5, 3⟩] (-2) 0 (by
      intro s hs
      rw [List.mem_singleton] at hs
      rw [hs]
      rfl)⟩

/-! ## CRC-32 combination correctness (claim C2) -/

theorem xor_left_comm (a b c : Nat) : a ^^^ (b ^^^ c) = b ^^^ (a ^^^ c) := by
  rw [← Nat.xor_assoc, Nat.xor_comm a b, Nat.xor_assoc]

theorem xor_cancel_left (a b : Nat) : a ^^^ (a ^^^ b) = b := by
  rw [← Nat.xor_assoc, Nat.xor_self, Nat.zero_xor]

theorem ite_parity_xor (P a b : Nat) :
    (if (a ^^^ b) % 2 = 1 then P else 0) =
      (if a % 2 = 1 then P else 0) ^^^ (if b % 2 = 1 then P else 0) := by
  rcases Nat.mod_two_eq_zero_or_one a with ha | ha <;>
    rcases Nat.mod_two_eq_zero_or_one b with hb | hb <;>
      simp [Nat.xor_mod_two_eq_one, ha, hb] <;> omega

theorem crc32_bit_xor (a b : Nat) :
    crc32_bit (a ^^^ b) = crc32_bit a ^^^ crc32_bit b := by
  rw [crc32_bit, crc32_bit, crc32_bit, Nat.xor_div_two, ite_parity_xor]
  simp [Nat.xor_assoc, Nat.xor_comm, xor_left_comm]

theorem crc32_bit_zero : crc32_bit 0 = 0 := by decide

theorem crc32_bit_iter_xor (n a b : Nat) :
    crc32_bit^[n] (a ^^^ b) = crc32_bit^[n] a ^^^ crc32_bit^[n] b := by
  induction n generalizing a b with
  | zero => rfl
  | succ n ih =>
      rw [Function.iterate_succ_apply, Function.iterate_succ_apply,
        Function.iterate_succ_apply, crc32_bit_xor, ih]

theorem crc32_bit_lt (a : Nat) (h : a < 2 ^ 32) : crc32_bit a < 2 ^ 32 := by
  rw [crc32_bit]
  refine Nat.xor_lt_two_pow (by omega) ?_
  rcases Nat.mod_two_eq_zero_or_one a with ha | ha <;> simp [ha, crc32_poly]

theorem crc32_bit_iter_lt (n a : Nat) (h : a < 2 ^ 32) :
    crc32_bit^[n] a < 2 ^ 32 := by
  induction n generalizing a with
  | zero => exact h
  | succ n ih => rw [Function.iterate_succ_apply]; exact ih _ (crc32_bit_lt a h)

theorem gf2_times_zero (mat : List Nat) : gf2_matrix_times mat 0 = 0 := by
  cases mat <;> simp [gf2_matrix_times]

theorem gf2_times_cons (m : Nat) (mat : List Nat) (vec : Nat) :
    gf2_matrix_times (m :: mat) vec =
      (if vec % 2 = 1 then m else 0) ^^^ gf2_matrix_times mat (vec / 2) := by
  by_cases h : vec = 0
  · subst h
    simp [gf2_matrix_times, gf2_times_zero]
  · rw [gf2_matrix_times, if_neg h]

theorem gf2_times_xor (mat : List Nat) :
    ∀ a b, gf2_matrix_times mat (a ^^^ b) =
      gf2_matrix_times mat a ^^^ gf2_matrix_times mat b := by
  induction mat with
  | nil => intro a b; simp [gf2_matrix_times]
  | cons m mat ih =>
      intro a b
      rw [gf2_times_cons, gf2_times_cons, gf2_times_cons, Nat.xor_div_two,
        ih, ite_parity_xor]
      simp [Nat.xor_assoc, Nat.xor_comm, xor_left_comm]

theorem gf2_times_map (f : Nat → Nat)
    (hf : ∀ a b, f (a ^^^ b) = f a ^^^ f b) :
    ∀ (mat : List Nat) (v : Nat),
      gf2_matrix_times (mat.map f) v = f (gf2_matrix_times mat v) := by
  have hf0 : f 0 = 0 := by
    have h := hf 0 0
    rw [Nat.xor_zero, Nat.xor_self] at h
    exact h
  intro mat
  induction mat with
  | nil => intro v; simp [gf2_matrix_times, hf0]
  | cons m mat ih =>
      intro v
      rw [List.map_cons, gf2_times_cons, gf2_times_cons, ih, hf]
      by_cases hc : v % 2 = 1 <;> simp [hc, hf0]

theorem gf2_square_times (mat : List Nat) (v : Nat) :
    gf2_matrix_times (gf2_matrix_square mat) v =
      gf2_matrix_times mat (gf2_matrix_times mat v) :=
  gf2_times_map _ (gf2_times_xor mat) mat v

theorem gf2_times_lt (mat : List Nat) (hm : ∀ x ∈ mat, x < 2 ^ 32) :
    ∀ v, gf2_matrix_times mat v < 2 ^ 32 := by
  induction mat with
  | nil =>
      intro v
      simp only [gf2_matrix_times]
      exact Nat.two_pow_pos 32
  | cons m mat ih =>
      intro v
      rw [gf2_times_cons]
      have hrec := ih (fun x hx => hm x (List.mem_cons_of_mem m hx)) (v / 2)
      have hite : (if v % 2 = 1 then m else 0) < 2 ^ 32 := by
        rcases Nat.mod_two_eq_zero_or_one v with hv | hv
        · rw [if_neg (by omega)]
          exact Nat.two_pow_pos 32
        · rw [if_pos hv]
          exact hm m (List.mem_cons_self m mat)
      exact Nat.xor_lt_two_pow hite hrec

theorem gf2_square_mem (mat : List Nat) (hm : ∀ x ∈ mat, x < 2 ^ 32) :
    ∀ x ∈ gf2_matrix_square mat, x < 2 ^ 32 := by
  intro x hx
  rw [gf2_matrix_square] at hx
  obtain ⟨y, hy, hxy⟩ := List.exists_of_mem_map hx
  rw [← hxy]
  exact gf2_times_lt mat hm y

theorem or_eq_xor_of_and_eq_zero {a b : Nat} (h : a &&& b = 0) :
    a ||| b = a ^^^ b := by
  refine Nat.eq_of_testBit_eq fun i => ?_
  have hi : (a &&& b).testBit i = false := by rw [h]; exact Nat.zero_testBit i
  rw [Nat.testBit_and] at hi
  rw [Nat.testBit_or, Nat.testBit_xor]
  cases ha : a.testBit i <;> cases hb : b.testBit i <;> simp_all

theorem two_pow_mul_and_two_pow (s q : Nat) : 2 ^ (s + 1) * q &&& 2 ^ s = 0 := by
  refine Nat.eq_of_testBit_eq fun i => ?_
  rw [Nat.testBit_and, Nat.zero_testBit, Nat.testBit_two_pow,
    Nat.testBit_mul_pow_two]
  by_cases hi : s = i
  · subst hi
    simp
  · simp [hi]

theorem two_pow_xor_mul (s q : Nat) :
    2 ^ s ^^^ 2 ^ (s + 1) * q = 2 ^ s + 2 ^ (s + 1) * q := by
  have hlt : (2 : Nat) ^ s < 2 ^ (s + 1) := Nat.pow_lt_pow_right (by omega) (by omega)
  have h1 : 2 ^ (s + 1) * q + 2 ^ s = 2 ^ (s + 1) * q ||| 2 ^ s :=
    Nat.mul_add_lt_is_or hlt q
  have h2 : 2 ^ (s + 1) * q ||| 2 ^ s = 2 ^ (s + 1) * q ^^^ 2 ^ s :=
    or_eq_xor_of_and_eq_zero (two_pow_mul_and_two_pow s q)
  rw [Nat.xor_comm, ← h2, ← h1, Nat.add_comm]

theorem mod_two_mul (w t : Nat) : w % (2 * t) = w % 2 + 2 * (w / 2 % t) := by
  have h1 : w % (2 * t) / 2 = w / 2 % t := Nat.mod_mul_right_div_self w 2 t
  have h2 : w % (2 * t) % 2 = w % 2 := Nat.mod_mod_of_dvd w ⟨t, rfl⟩
  omega

theorem gf2_times_range_pow :
    ∀ (k s w : Nat),
      gf2_matrix_times ((List.range k).map (fun n => 2 ^ (s + n))) w =
        2 ^ s * (w % 2 ^ k) := by
  intro k
  induction k with
  | zero =>
      intro s w
      simp [gf2_matrix_times, Nat.mod_one]
  | succ k ih =>
      intro s w
      rw [List.range_succ_eq_map, List.map_cons, List.map_map]
      have hcomp : ((fun n => 2 ^ (s + n)) ∘ Nat.succ) =
          (fun n => 2 ^ (s + 1 + n)) := by
        funext n
        simp only [Function.comp_apply]
        congr 1
        omega
      rw [hcomp, gf2_times_cons, ih]
      have he : (2 : Nat) ^ (k + 1) = 2 * 2 ^ k := by
        rw [Nat.pow_succ, Nat.mul_comm]
      rw [Nat.add_zero, he, mod_two_mul]
      rcases Nat.mod_two_eq_zero_or_one w with hw | hw
      · rw [if_neg (by omega), Nat.zero_xor, hw, Nat.mul_add]
        ring
      · rw [if_pos hw, two_pow_xor_mul, hw, Nat.mul_add]
        ring

theorem gf2_times_odd1 (v : Nat) (hv : v < 2 ^ 32) :
    gf2_matrix_times (crc32_poly :: (List.range 31).map (fun n => 2 ^ n)) v =
      crc32_bit v := by
  have hzero : ((fun n => (2 : Nat) ^ n)) = (fun n => 2 ^ (0 + n)) := by
    funext n
    rw [Nat.zero_add]
  rw [gf2_times_cons, hzero, gf2_times_range_pow, Nat.pow_zero, Nat.one_mul]
  have hsm : v / 2 % 2 ^ 31 = v / 2 := Nat.mod_eq_of_lt (by omega)
  rw [hsm, crc32_bit, Nat.xor_comm]

theorem odd1_mem :
    ∀ x ∈ crc32_poly :: (List.range 31).map (fun n => (2 : Nat) ^ n),
      x < 2 ^ 32 := by
  intro x hx
  rw [List.mem_cons] at hx
  rcases hx with hx | hx
  · rw [hx, crc32_poly]
    omega
  · obtain ⟨n, hn, hxn⟩ := List.exists_of_mem_map hx
    rw [List.mem_range] at hn
    rw [← hxn]
    exact Nat.pow_lt_pow_right (by omega) (by omega)

theorem square_lift (odd : List Nat) (j : Nat)
    (hmem : ∀ x ∈ odd, x < 2 ^ 32)
    (hspec : ∀ v, v < 2 ^ 32 → gf2_matrix_times odd v = crc32_bit^[j] v) :
    (∀ x ∈ gf2_matrix_square odd, x < 2 ^ 32) ∧
    (∀ v, v < 2 ^ 32 →
      gf2_matrix_times (gf2_matrix_square odd) v = crc32_bit^[2 * j] v) := by
  refine ⟨gf2_square_mem odd hmem, fun v hv => ?_⟩
  rw [gf2_square_times, hspec v hv, hspec _ (crc32_bit_iter_lt j v hv),
    two_mul, Function.iterate_add_apply]

theorem crc32_comb_loop_spec :
    ∀ (len2 : Nat), 0 < len2 →
    ∀ (odd : List Nat) (j : Nat) (crc1 : Nat),
      (∀ x ∈ odd, x < 2 ^ 32) →
      (∀ v, v < 2 ^ 32 → gf2_matrix_times odd v = crc32_bit^[j] v) →
      crc1 < 2 ^ 32 →
      crc32_comb_loop odd crc1 len2 = crc32_bit^[2 * j * len2] crc1 := by
  intro len2
  induction len2 using Nat.strong_induction_on with
  | _ len2 IH =>
    intro hpos odd j crc1 hmem hspec hcrc
    obtain ⟨hmem2, hspec2⟩ := square_lift odd j hmem hspec
    obtain ⟨hmem4, hspec4⟩ := square_lift _ _ hmem2 hspec2
    by_cases h1 : len2 / 2 = 0
    · have hl1 : len2 = 1 := by omega
      subst hl1
      rw [crc32_comb_loop.eq_def]
      norm_num
      rw [hspec2 crc1 hcrc]
    · by_cases h2 : len2 / 2 / 2 = 0
      · have hl : len2 = 2 ∨ len2 = 3 := by omega
        rcases hl with hl | hl
        · subst hl
          rw [crc32_comb_loop.eq_def]
          norm_num
          rw [hspec4 crc1 hcrc]
          have he : 2 * (2 * j) = 2 * j * 2 := by ring
          rw [he]
        · subst hl
          rw [crc32_comb_loop.eq_def]
          norm_num
          rw [hspec2 crc1 hcrc, hspec4 _ (crc32_bit_iter_lt _ _ hcrc),
            ← Function.iterate_add_apply]
          have he : 2 * (2 * j) + 2 * j = 2 * j * 3 := by ring
          rw [he]
      · rw [crc32_comb_loop.eq_def]
        simp only [dif_neg h1, dif_neg h2]
        obtain ⟨q, hq⟩ : ∃ q, len2 / 2 / 2 = q := ⟨_, rfl⟩
        have hqpos : 0 < q := by omega
        have hqlt : q < len2 := by omega
        rcases Nat.mod_two_eq_zero_or_one len2 with hb0 | hb0 <;>
          rcases Nat.mod_two_eq_zero_or_one (len2 / 2) with hb1 | hb1
        · -- len2 = 4q
          have hlen : len2 = 4 * q := by omega
          rw [if_neg (by omega), if_neg (by omega), hq,
            IH q hqlt hqpos _ (2 * (2 * j)) crc1 hmem4 hspec4 hcrc]
          have he : 2 * (2 * (2 * j)) * q = 2 * j * len2 := by
            rw [hlen]; ring
          rw [he]
        · -- len2 = 4q + 2
          have hlen : len2 = 4 * q + 2 := by omega
          rw [if_pos hb1, if_neg (by omega), hq,
            IH q hqlt hqpos _ (2 * (2 * j)) _ hmem4 hspec4
              (gf2_times_lt _ hmem4 crc1),
            hspec4 crc1 hcrc, ← Function.iterate_add_apply]
          have he : 2 * (2 * (2 * j)) * q + 2 * (2 * j) = 2 * j * len2 := by
            rw [hlen]; ring
          rw [he]
        · -- len2 = 4q + 1
          have hlen : len2 = 4 * q + 1 := by omega
          rw [if_neg (by omega), if_pos hb0, hq,
            IH q hqlt hqpos _ (2 * (2 * j)) _ hmem4 hspec4
              (gf2_times_lt _ hmem2 crc1),
            hspec2 crc1 hcrc, ← Function.iterate_add_apply]
          have he : 2 * (2 * (2 * j)) * q + 2 * j = 2 * j * len2 := by
            rw [hlen]; ring
          rw [he]
        · -- len2 = 4q + 3
          have hlen : len2 = 4 * q + 3 := by omega
          rw [if_pos hb1, if_pos hb0, hq,
            IH q hqlt hqpos _ (2 * (2 * j)) _ hmem4 hspec4
              (gf2_times_lt _ hmem4 _),
            hspec2 crc1 hcrc, hspec4 _ (crc32_bit_iter_lt _ _ hcrc),
            ← Function.iterate_add_apply, ← Function.iterate_add_apply]
          have he : 2 * (2 * (2 * j)) * q + 2 * (2 * j) + 2 * j =
              2 * j * len2 := by
            rw [hlen]; ring
          rw [he]

theorem crc32_comb_spec (crc1 crc2 len2 : Nat) (h1 : crc1 < 2 ^ 32)
    (hn : len2 ≠ 0) :
    crc32_comb crc1 crc2 len2 = crc32_bit^[8 * len2] crc1 ^^^ crc2 := by
  simp only [crc32_comb, hn, if_false, ite_false]
  have hspec1 : ∀ v, v < 2 ^ 32 →
      gf2_matrix_times (crc32_poly :: (List.range 31).map (fun n => 2 ^ n)) v =
        crc32_bit^[1] v := by
    intro v hv
    rw [gf2_times_odd1 v hv, Function.iterate_one]
  obtain ⟨hm2, hs2⟩ := square_lift _ 1 odd1_mem hspec1
  obtain ⟨hm4, hs4⟩ := square_lift _ _ hm2 hs2
  rw [crc32_comb_loop_spec len2 (by omega) _ (2 * (2 * 1)) crc1 hm4 hs4 h1]

theorem crc32_byte_aff (x y b : Nat) :
    crc32_byte (x ^^^ y) b = crc32_byte x b ^^^ crc32_byte y 0 := by
  rw [crc32_byte, crc32_byte, crc32_byte, ← crc32_bit_iter_xor]
  congr 1
  simp [Nat.xor_assoc, Nat.xor_comm, xor_left_comm]

theorem crc32_raw_append (c : Nat) (A B : List Nat) :
    crc32_raw c (A ++ B) = crc32_raw (crc32_raw c A) B :=
  List.foldl_append crc32_byte c A B

theorem crc32_raw_aff : ∀ (d : List Nat) (x y : Nat),
    crc32_raw (x ^^^ y) d =
      crc32_raw x d ^^^ crc32_raw y (List.replicate d.length 0) := by
  intro d
  induction d with
  | nil => intro x y; rfl
  | cons b d ih =>
      intro x y
      rw [List.length_cons, List.replicate_succ]
      show crc32_raw (crc32_byte (x ^^^ y) b) d =
        crc32_raw (crc32_byte x b) d ^^^
          crc32_raw (crc32_byte y 0) (List.replicate d.length 0)
      rw [crc32_byte_aff, ih]

theorem crc32_raw_zeros (n : Nat) :
    ∀ i, crc32_raw i (List.replicate n 0) = crc32_bit^[8 * n] i := by
  induction n with
  | zero => intro i; rfl
  | succ n ih =>
      intro i
      rw [List.replicate_succ]
      show crc32_raw (crc32_byte i 0) (List.replicate n 0) = _
      rw [ih]
      have hb : crc32_byte i 0 = crc32_bit^[8] i := by
        rw [crc32_byte]
        norm_num
      rw [hb, ← Function.iterate_add_apply]
      have he : 8 * n + 8 = 8 * (n + 1) := by omega
      rw [he]

theorem crc32_byte_lt (c b : Nat) (h : c < 2 ^ 32) : crc32_byte c b < 2 ^ 32 := by
  rw [crc32_byte]
  exact crc32_bit_iter_lt 8 _ (Nat.xor_lt_two_pow h (by omega))

theorem crc32_raw_lt : ∀ (d : List Nat) (c : Nat), c < 2 ^ 32 →
    crc32_raw c d < 2 ^ 32 := by
  intro d
  induction d with
  | nil => intro c h; exact h
  | cons b d ih =>
      intro c h
      exact ih _ (crc32_byte_lt c b h)

theorem crc32_lt (d : List Nat) : crc32 d < 2 ^ 32 := by
  rw [crc32]
  exact Nat.xor_lt_two_pow (crc32_raw_lt d _ (by norm_num)) (by norm_num)

theorem crc32_comb_correct (A B : List Nat) :
    crc32_comb (crc32 A) (crc32 B) B.length = crc32 (A ++ B) := by
  by_cases hB : B.length = 0
  · have hBnil : B = [] := List.length_eq_zero.mp hB
    subst hBnil
    rw [List.append_nil, crc32_comb, if_pos hB]
  · rw [crc32_comb_spec _ _ _ (crc32_lt A) hB]
    have hx : ∀ x : Nat, (0xffffffff : Nat) ^^^ (x ^^^ 0xffffffff) = x := by
      intro x
      rw [xor_left_comm, Nat.xor_self, Nat.xor_zero]
    have h2 : crc32_raw (crc32_raw 0xffffffff A) B =
        crc32_raw 0xffffffff B ^^^ crc32_bit^[8 * B.length] (crc32 A) := by
      conv_lhs => rw [← hx (crc32_raw 0xffffffff A)]
      rw [crc32_raw_aff, crc32_raw_zeros]
      rfl
    conv_rhs => rw [crc32, crc32_raw_append, h2]
    simp [crc32, Nat.xor_assoc, Nat.xor_comm, xor_left_comm]

theorem crc32_fold_partition :
    ∀ (bs : List (List Nat)) (X : List Nat),
      bs.foldl (fun c b => crc32_comb c (crc32 b) b.length) (crc32 X) =
        crc32 (X ++ bs.flatten) := by
  intro bs
  induction bs with
  | nil => intro X; simp
  | cons b bs ih =>
      intro X
      rw [List.foldl_cons, crc32_comb_correct, ih, List.flatten_cons,
        List.append_assoc]

/-- Claim C2: for all byte sequences A and B, crc32_comb applied to the
CRC-32 values of A and B with the length of B recovers the CRC-32 of the
concatenation, for every length including 0; consequently folding
crc32_comb over the per-block CRC-32 values of any partition in block
order, from the seed crc32 of the empty sequence (which is 0), recovers
the CRC-32 of the whole sequence. -/
theorem claim_C2 :
    (∀ A B : List Nat,
      crc32_comb (crc32 A) (crc32 B) B.length = crc32 (A ++ B)) ∧
    (∀ bs : List (List Nat),
      bs.foldl (fun c b => crc32_comb c (crc32 b) b.length) (crc32 []) =
        crc32 bs.flatten) := by
  refine ⟨crc32_comb_correct, fun bs => ?_⟩
  have h := crc32_fold_partition bs []
  simpa using h

set_option maxRecDepth 8192 in
/-- Claim C3: evaluation of `adler32_comb` at a failing input.  For the
257 byte region A of 256 bytes 0xFF followed by 0xF0 the low 16 bit sum
of its Adler-32 is 0, and combining with the Adler-32 of the empty region
B (length 0) yields low 16 bits 65521 instead of 0: the strict
comparisons `sum1 > BASE` of pigz.c lines 293 - 296 fail to reduce a sum
that lands exactly on BASE, so the result differs from the Adler-32 of
A ++ B.  This is the adler32_combine defect of zlib 1.2.3, from which the
code was copied. -/
theorem claim_C3 :
    adler32_comb (adler32 (List.replicate 256 255 ++ [240])) (adler32 []) 0 =
      0x800fff1 ∧
    adler32 ((List.replicate 256 255 ++ [240]) ++ []) = 0x8000000 ∧
    (0x800fff1 : Nat) ≠ 0x8000000 := by decide
